import Mathlib

/-!
Verification of the thermotools WHAM/MBAR core: a shallow embedding of the
log-sum-exp based update kernels (`src/ext/wham/_wham.c`) and of the
fixed-point iteration driver `estimate` (`src/ext/mbar_direct/mbar_direct.pyx`),
with theorems settling the specification claims about them.

Machine floating point is modelled by exact real arithmetic (`ℝ`), as the
claims themselves are phrased "in exact real arithmetic, up to rounding".
C arrays are modelled as functions `ℕ → ℝ` (reads/writes at integer offsets);
Python/NumPy one-dimensional arrays as `List ℝ`.
-/

namespace Thermotools

/-- Modelled from the spec: the log-sum-exp primitive `rc_logsumexp` of
`src/ext/lse/_lse.c` (declared in `_lse.h`, the implementation file is not
part of the sources at hand).  Spec contract: given a sequence of values,
returns `log(sum(exp(values)))`.  In exact real arithmetic the
max-subtraction trick of the implementation is the identity, so the model is
the mathematical formula itself.  This version is for finite (real) inputs,
as used by the WHAM kernels. -/
noncomputable def rc_logsumexp (v : List ℝ) : ℝ :=
  Real.log ((v.map Real.exp).sum)

/-- Modelled from the spec: the log-sum-exp primitive on extended inputs
("possibly including negative infinity for excluded entries", modelled as
`none`): `exp(-∞) = 0` contributes nothing to the sum, and if all entries are
negative infinity the result is negative infinity (`none`), the empty-sum
convention. -/
noncomputable def rc_logsumexp_ext (v : List (Option ℝ)) : Option ℝ :=
  if ∀ x ∈ v, x = none then none
  else some (Real.log ((v.map fun x => x.elim 0 Real.exp).sum))

/-- Reading the first `n` cells of a C array and reducing them with
`rc_logsumexp`, as in the calls `rc_logsumexp(scratch, n)`. -/
noncomputable def lseArr (a : ℕ → ℝ) (n : ℕ) : ℝ :=
  rc_logsumexp ((List.range n).map a)

/-- `numpy.max` over a one-dimensional array: maximum of a list of reals
(0 on the empty list; NumPy raises there, and no claim depends on that case). -/
noncomputable def lmax : List ℝ → ℝ
  | [] => 0
  | x :: xs => xs.foldl max x

/- ### Generic list/fold helper lemmas -/

lemma foldl_max_mono (xs : List ℝ) :
    ∀ a b : ℝ, a ≤ b → xs.foldl max a ≤ xs.foldl max b := by
  induction xs with
  | nil => intro a b h; simpa using h
  | cons x xs ih =>
      intro a b h
      exact ih _ _ (max_le_max_right x h)

lemma le_foldl_max (xs : List ℝ) (a : ℝ) : a ≤ xs.foldl max a := by
  induction xs generalizing a with
  | nil => simp
  | cons x xs ih =>
      calc a ≤ max a x := le_max_left _ _
      _ ≤ xs.foldl max (max a x) := ih _

lemma mem_le_foldl_max (xs : List ℝ) : ∀ (a x : ℝ), x ∈ xs →
    x ≤ xs.foldl max a := by
  induction xs with
  | nil => intro a x hx; cases hx
  | cons y ys ih =>
      intro a x hx
      rcases List.mem_cons.mp hx with h | h
      · subst h
        calc x ≤ max a x := le_max_right _ _
        _ ≤ ys.foldl max (max a x) := le_foldl_max _ _
      · exact ih _ _ h

lemma foldl_max_choice (xs : List ℝ) :
    ∀ a : ℝ, xs.foldl max a = a ∨ xs.foldl max a ∈ xs := by
  induction xs with
  | nil => intro a; left; rfl
  | cons x xs ih =>
      intro a
      rcases ih (max a x) with h | h
      · rcases max_choice a x with hm | hm
        · left; rw [List.foldl_cons, h, hm]
        · right; rw [List.foldl_cons, h, hm]; exact List.mem_cons_self _ _
      · right; exact List.mem_cons_of_mem _ h

lemma le_lmax (l : List ℝ) (x : ℝ) (hx : x ∈ l) : x ≤ lmax l := by
  cases l with
  | nil => cases hx
  | cons y ys =>
      rcases List.mem_cons.mp hx with h | h
      · subst h; exact le_foldl_max _ _
      · exact mem_le_foldl_max _ _ _ h


lemma lmax_mem (l : List ℝ) (hl : l ≠ []) : lmax l ∈ l := by
  cases l with
  | nil => exact absurd rfl hl
  | cons y ys =>
      rcases foldl_max_choice ys y with h | h
      · simp [lmax, h]
      · exact List.mem_cons_of_mem _ (by simpa [lmax] using h)

lemma sum_map_range_succ (g : ℕ → ℝ) (n : ℕ) :
    ((List.range (n + 1)).map g).sum = ((List.range n).map g).sum + g n := by
  rw [List.range_succ, List.map_append, List.sum_append]
  simp

lemma sum_map_mul_const (l : List ℕ) (g : ℕ → ℝ) (a : ℝ) :
    (l.map fun i => g i * a).sum = (l.map g).sum * a := by
  induction l with
  | nil => simp
  | cons x xs ih => simp [ih, add_mul]

lemma sum_map_range_pos (g : ℕ → ℝ) (n : ℕ) (hn : 0 < n)
    (hg : ∀ i, 0 < g i) : 0 < ((List.range n).map g).sum := by
  refine List.sum_pos _ ?_ ?_
  · intro x hx
    rcases List.mem_map.mp hx with ⟨i, _, rfl⟩
    exact hg i
  · simp [List.range_eq_nil, Nat.pos_iff_ne_zero.mp hn]

/- ### WHAM kernels, from `src/ext/wham/_wham.c`

Each kernel receives its arrays as C pointers; we model an array of doubles
as a function `ℕ → ℝ` and a store `a[k] = v` as `Function.update a k v`.
A kernel returns the final contents of exactly the arrays it writes through
(the C code writes only through `scratch` and its output pointer). -/

/-- `rc_wham_fi` (`_wham.c`, lines 16–27): for each Markov state `i`, fill
`scratch[K] = log_N_K[K] - b_K_i[K*M + i] + f_K[K]` for every `K`, then set
`f_i[i] = rc_logsumexp(scratch, T) - log_N_i[i]`.  Returns the final
`(scratch, f_i)` contents. -/
noncomputable def rc_wham_fi (log_N_K log_N_i f_K b_K_i : ℕ → ℝ)
    (n_therm_states n_markov_states : ℕ) (scratch f_i : ℕ → ℝ) :
    (ℕ → ℝ) × (ℕ → ℝ) :=
  (List.range n_markov_states).foldl
    (fun p i =>
      let scratch1 := (List.range n_therm_states).foldl
        (fun s K => Function.update s K
          (log_N_K K - b_K_i (K * n_markov_states + i) + f_K K)) p.1
      (scratch1,
        Function.update p.2 i (lseArr scratch1 n_therm_states - log_N_i i)))
    (scratch, f_i)

/-- `rc_wham_fk` (`_wham.c`, lines 29–41): for each thermodynamic state `K`
(with `KM = K*M`), fill `scratch[i] = -(b_K_i[KM + i] + f_i[i])` for every
`i`, then set `f_K[K] = -rc_logsumexp(scratch, M)`.  Returns the final
`(scratch, f_K)` contents. -/
noncomputable def rc_wham_fk (f_i b_K_i : ℕ → ℝ)
    (n_therm_states n_markov_states : ℕ) (scratch f_K : ℕ → ℝ) :
    (ℕ → ℝ) × (ℕ → ℝ) :=
  (List.range n_therm_states).foldl
    (fun p K =>
      let scratch1 := (List.range n_markov_states).foldl
        (fun s i => Function.update s i
          (-(b_K_i (K * n_markov_states + i) + f_i i))) p.1
      (scratch1,
        Function.update p.2 K (-(lseArr scratch1 n_markov_states))))
    (scratch, f_K)

/-- `rc_wham_normalize` (`_wham.c`, lines 43–52): fill
`scratch[i] = -f_i[i]`, compute `shift = rc_logsumexp(scratch, M)`, then do
`f_i[i] += shift` for every `i`.  Returns the final `(f_i, scratch)`
contents. -/
noncomputable def rc_wham_normalize (f_i : ℕ → ℝ) (n_markov_states : ℕ)
    (scratch : ℕ → ℝ) : (ℕ → ℝ) × (ℕ → ℝ) :=
  let scratch1 := (List.range n_markov_states).foldl
    (fun s i => Function.update s i (-(f_i i))) scratch
  let shift := lseArr scratch1 n_markov_states
  ((List.range n_markov_states).foldl
      (fun g i => Function.update g i (g i + shift)) f_i,
    scratch1)

/- ### Closed forms for the kernel loops -/

lemma foldl_update_range (g : ℕ → ℝ) (n : ℕ) :
    ∀ (s0 : ℕ → ℝ) (k : ℕ),
      ((List.range n).foldl (fun s K => Function.update s K (g K)) s0) k =
        if k < n then g k else s0 k := by
  induction n with
  | zero => intro s0 k; simp
  | succ n ih =>
      intro s0 k
      rw [List.range_succ, List.foldl_append]
      simp only [List.foldl_cons, List.foldl_nil]
      rw [Function.update_apply, ih]
      by_cases hk : k = n
      · subst hk; simp
      · by_cases hlt : k < n
        · simp [hk, hlt, Nat.lt_succ_of_lt hlt]
        · have : ¬ k < n + 1 := by omega
          simp [hk, hlt, this]

lemma foldl_update_add_range (c : ℝ) (n : ℕ) :
    ∀ (f : ℕ → ℝ) (k : ℕ),
      ((List.range n).foldl (fun g i => Function.update g i (g i + c)) f) k =
        if k < n then f k + c else f k := by
  induction n with
  | zero => intro f k; simp
  | succ n ih =>
      intro f k
      rw [List.range_succ, List.foldl_append]
      simp only [List.foldl_cons, List.foldl_nil]
      rw [Function.update_apply, ih, ih]
      by_cases hk : k = n
      · subst hk; simp
      · by_cases hlt : k < n
        · simp [hk, hlt, Nat.lt_succ_of_lt hlt]
        · have : ¬ k < n + 1 := by omega
          simp [hk, hlt, this]

lemma lseArr_foldl_update (g : ℕ → ℝ) (n : ℕ) (s0 : ℕ → ℝ) :
    lseArr ((List.range n).foldl (fun s K => Function.update s K (g K)) s0) n =
      rc_logsumexp ((List.range n).map g) := by
  unfold lseArr
  congr 1
  refine List.map_congr_left ?_
  intro k hk
  rw [foldl_update_range]
  simp [List.mem_range.mp hk]

/-- Second components of the paired kernel folds: the value written into the
output array at index `i` does not depend on the scratch contents carried in
the first component, so the output fold is a plain update fold. -/
lemma foldl_pair_snd (step1 : (ℕ → ℝ) → ℕ → (ℕ → ℝ))
    (val : (ℕ → ℝ) → ℕ → ℝ) (F : ℕ → ℝ) (l : List ℕ)
    (hval : ∀ s i, i ∈ l → val (step1 s i) i = F i) :
    ∀ p : (ℕ → ℝ) × (ℕ → ℝ),
      (l.foldl (fun q i =>
          (step1 q.1 i, Function.update q.2 i (val (step1 q.1 i) i))) p).2 =
        l.foldl (fun g i => Function.update g i (F i)) p.2 := by
  induction l with
  | nil => intro p; rfl
  | cons a t ih =>
      intro p
      simp only [List.foldl_cons]
      rw [hval p.1 a (List.mem_cons_self _ _)]
      exact ih (fun s i hi => hval s i (List.mem_cons_of_mem _ hi)) _

lemma rc_wham_fi_apply (log_N_K log_N_i f_K b_K_i : ℕ → ℝ)
    (T M : ℕ) (scratch f_i0 : ℕ → ℝ) (k : ℕ) :
    (rc_wham_fi log_N_K log_N_i f_K b_K_i T M scratch f_i0).2 k =
      if k < M then
        rc_logsumexp ((List.range T).map fun K =>
          log_N_K K - b_K_i (K * M + k) + f_K K) - log_N_i k
      else f_i0 k := by
  have h := foldl_pair_snd
    (fun s i => (List.range T).foldl
      (fun s K => Function.update s K
        (log_N_K K - b_K_i (K * M + i) + f_K K)) s)
    (fun s i => lseArr s T - log_N_i i)
    (fun i => rc_logsumexp ((List.range T).map fun K =>
      log_N_K K - b_K_i (K * M + i) + f_K K) - log_N_i i)
    (List.range M)
    (fun s i _ => by simp only [lseArr_foldl_update])
    (scratch, f_i0)
  unfold rc_wham_fi
  rw [h, foldl_update_range]

lemma rc_wham_fk_apply (f_i b_K_i : ℕ → ℝ) (T M : ℕ)
    (scratch f_K0 : ℕ → ℝ) (k : ℕ) :
    (rc_wham_fk f_i b_K_i T M scratch f_K0).2 k =
      if k < T then
        -(rc_logsumexp ((List.range M).map fun i =>
          -(b_K_i (k * M + i) + f_i i)))
      else f_K0 k := by
  have h := foldl_pair_snd
    (fun s K => (List.range M).foldl
      (fun s i => Function.update s i (-(b_K_i (K * M + i) + f_i i))) s)
    (fun s K => -(lseArr s M))
    (fun K => -(rc_logsumexp ((List.range M).map fun i =>
      -(b_K_i (K * M + i) + f_i i))))
    (List.range T)
    (fun s K _ => by simp only [lseArr_foldl_update])
    (scratch, f_K0)
  unfold rc_wham_fk
  rw [h, foldl_update_range]

lemma rc_wham_normalize_fst (f : ℕ → ℝ) (M : ℕ) (scratch : ℕ → ℝ) (k : ℕ) :
    (rc_wham_normalize f M scratch).1 k =
      if k < M then
        f k + rc_logsumexp ((List.range M).map fun i => -(f i))
      else f k := by
  unfold rc_wham_normalize
  simp only
  rw [foldl_update_add_range, lseArr_foldl_update]

/- ### The fixed-point iteration driver `estimate`
(`src/ext/mbar_direct/mbar_direct.pyx`, lines 100–151)

The weight-update kernel `_update_therm_weights` lives in `_mbar_direct.c`,
which is not among the sources at hand; the driver claims do not depend on
its body, so it enters the model as an abstract function
`upd : List ℝ → List ℝ` from the old weight vector to the new one (the other
arrays it reads are fixed throughout the loop).  The observer callback is
modelled by its only three observable behaviours per invocation: return
normally, raise `CallbackInterrupt`, or raise any other exception. -/

/-- Outcome of one observer-callback invocation. -/
inductive CbRes where
  | ret : CbRes
  | interrupt : CbRes
  | exc : CbRes
deriving DecidableEq

/-- The driver's per-iteration mutable state: `old_therm_weights`,
`therm_weights`, the stride counter `err_count` and the trajectory
`err_traj`. -/
structure LoopState where
  oldW : List ℝ
  w : List ℝ
  errCount : ℕ
  errTraj : List ℝ

/-- `np.abs(therm_weights - old_therm_weights) / np.abs(therm_weights)`,
elementwise. -/
noncomputable def relErr (neww old : List ℝ) : List ℝ :=
  List.zipWith (fun a b => |a - b| / |a|) neww old

/-- `np.abs(therm_weights - old_therm_weights) - maxerr * np.abs(therm_weights)`,
elementwise: the vector whose maximum the convergence test compares with 0. -/
noncomputable def convVec (neww old : List ℝ) (maxerr : ℝ) : List ℝ :=
  List.zipWith (fun a b => |a - b| - maxerr * |a|) neww old

/-- The scalar convergence error `err` of the iteration that starts from
state `s`. -/
noncomputable def errOf (upd : List ℝ → List ℝ) (s : LoopState) : ℝ :=
  lmax (relErr (upd s.oldW) s.oldW)

/-- One iteration of the `for _m in range(maxiter)` body (lines 117–141):
increment `err_count`; overwrite `therm_weights` with the kernel update of
`old_therm_weights`; compute `err`; if `err_count == err_out`, reset the
counter and append `err` to the trajectory; invoke the callback — an
interruption sets `stop`, any other exception propagates (`Except.error`);
if `max(|new-old| - maxerr*|new|) < 0` set `stop`, else copy
`old_therm_weights[:] = therm_weights[:]`; finally break iff `stop`.
Returns the updated state and the break flag. -/
noncomputable def bodyStep (upd : List ℝ → List ℝ) (maxerr : ℝ)
    (errOut : ℕ) (cb : ℕ → CbRes) (m : ℕ) (s : LoopState) :
    Except Unit (LoopState × Bool) :=
  let c1 := s.errCount + 1
  let w1 := upd s.oldW
  let err := lmax (relErr w1 s.oldW)
  let c2 := if c1 = errOut then 0 else c1
  let tr := if c1 = errOut then s.errTraj ++ [err] else s.errTraj
  match cb m with
  | CbRes.exc => Except.error ()
  | CbRes.interrupt =>
      if lmax (convVec w1 s.oldW maxerr) < 0 then
        Except.ok (⟨s.oldW, w1, c2, tr⟩, true)
      else
        Except.ok (⟨w1, w1, c2, tr⟩, true)
  | CbRes.ret =>
      if lmax (convVec w1 s.oldW maxerr) < 0 then
        Except.ok (⟨s.oldW, w1, c2, tr⟩, true)
      else
        Except.ok (⟨w1, w1, c2, tr⟩, false)

/-- The `for _m in range(maxiter)` loop: run `bodyStep` up to `n` more
times, starting at iteration index `m`; stop at the first iteration whose
break flag is set, propagate a callback exception. -/
noncomputable def loopRun (upd : List ℝ → List ℝ) (maxerr : ℝ)
    (errOut : ℕ) (cb : ℕ → CbRes) :
    ℕ → ℕ → LoopState → Except Unit LoopState
  | 0, _, s => Except.ok s
  | n + 1, m, s =>
      match bodyStep upd maxerr errOut cb m s with
      | Except.error e => Except.error e
      | Except.ok (s1, true) => Except.ok s1
      | Except.ok (s1, false) => loopRun upd maxerr errOut cb n (m + 1) s1

/-- Initial `therm_weights` (lines 104–108): all ones when no warm start is
supplied, `exp(-therm_energies)` otherwise. -/
noncomputable def initW (te0 : Option (List ℝ)) (T : ℕ) : List ℝ :=
  match te0 with
  | none => List.replicate T (1 : ℝ)
  | some te => te.map fun x => Real.exp (-x)

/-- The values the driver returns that are computed by the core itself:
`therm_energies = -np.log(therm_weights)` and the error trajectory
(`None` when `err_out == 0`, else the collected list).  The configurational
energies come from the external `mbar` service, outside the core. -/
structure EstimateResult where
  thermEnergies : List ℝ
  errTraj : Option (List ℝ)

/-- The driver `estimate` (lines 100–151), reduced to the core state it
iterates: seed the weights, run the loop, convert the final weights to free
energies by elementwise negative log, and return the trajectory (absent when
`err_out == 0`).  A non-interrupt callback exception escapes as
`Except.error`. -/
noncomputable def estimate (upd : List ℝ → List ℝ) (maxiter : ℕ)
    (maxerr : ℝ) (te0 : Option (List ℝ)) (errOut : ℕ) (cb : ℕ → CbRes)
    (T : ℕ) : Except Unit EstimateResult :=
  match loopRun upd maxerr errOut cb maxiter 0
      ⟨initW te0 T, initW te0 T, 0, []⟩ with
  | Except.error e => Except.error e
  | Except.ok sf =>
      Except.ok ⟨sf.w.map fun x => -Real.log x,
        if errOut = 0 then none else some sf.errTraj⟩

/-- The scalar convergence errors of the completed iterations of a run, in
iteration order (an iteration counts as completed also when it breaks the
loop, since the trajectory append precedes the break). -/
noncomputable def completedErrs (upd : List ℝ → List ℝ) (maxerr : ℝ)
    (errOut : ℕ) (cb : ℕ → CbRes) :
    ℕ → ℕ → LoopState → List ℝ
  | 0, _, _ => []
  | n + 1, m, s =>
      match bodyStep upd maxerr errOut cb m s with
      | Except.error _ => []
      | Except.ok (_, true) => [errOf upd s]
      | Except.ok (s1, false) =>
          errOf upd s :: completedErrs upd maxerr errOut cb n (m + 1) s1

/-- Spec-side sampling: the elements of `l` at every `k`-th position,
counting with a counter that starts at `c`, is incremented before each
comparison with `k`, and resets to zero after each hit. -/
def collectEvery (k : ℕ) : ℕ → List ℝ → List ℝ
  | _, [] => []
  | c, e :: es =>
      if c + 1 = k then e :: collectEvery k 0 es
      else collectEvery k (c + 1) es

/- ### Driver invariants -/

/-- Whatever the callback outcome short of an exception, one loop body
updates the stride counter and the trajectory by the same rule: increment,
and on reaching `err_out` append the iteration's error and reset. -/
lemma bodyStep_count_traj (upd : List ℝ → List ℝ) (maxerr : ℝ)
    (errOut : ℕ) (cb : ℕ → CbRes) (m : ℕ) (s s1 : LoopState) (b : Bool)
    (h : bodyStep upd maxerr errOut cb m s = Except.ok (s1, b)) :
    s1.errCount = (if s.errCount + 1 = errOut then 0 else s.errCount + 1) ∧
      s1.errTraj = (if s.errCount + 1 = errOut then
        s.errTraj ++ [errOf upd s] else s.errTraj) := by
  unfold bodyStep at h
  rcases hc : cb m with _ | _ | _ <;> rw [hc] at h <;>
    simp only at h
  · split at h <;>
      · rcases Except.ok.inj h with h1
        rcases Prod.mk.injEq .. ▸ h1 with ⟨h2, _⟩
        subst h2
        exact ⟨rfl, rfl⟩
  · split at h <;>
      · rcases Except.ok.inj h with h1
        rcases Prod.mk.injEq .. ▸ h1 with ⟨h2, _⟩
        subst h2
        exact ⟨rfl, rfl⟩
  · cases h

/-- Trajectory invariant of the loop: on a run that leaves the loop normally
the final trajectory extends the initial one by exactly every `err_out`-th
entry of the per-iteration error sequence, sampled with the running
counter. -/
lemma loopRun_traj (upd : List ℝ → List ℝ) (maxerr : ℝ) (errOut : ℕ)
    (cb : ℕ → CbRes) :
    ∀ (n m : ℕ) (s sf : LoopState),
      loopRun upd maxerr errOut cb n m s = Except.ok sf →
      sf.errTraj = s.errTraj ++
        collectEvery errOut s.errCount
          (completedErrs upd maxerr errOut cb n m s) := by
  intro n
  induction n with
  | zero =>
      intro m s sf h
      rcases Except.ok.inj h with rfl
      simp [completedErrs, collectEvery]
  | succ n ih =>
      intro m s sf h
      rw [loopRun] at h
      rw [completedErrs]
      rcases hb : bodyStep upd maxerr errOut cb m s with e | ⟨s1, b⟩ <;>
        rw [hb] at h
      · cases h
      · rcases bodyStep_count_traj upd maxerr errOut cb m s s1 b hb
          with ⟨hcnt, htraj⟩
        cases b with
        | true =>
            rcases Except.ok.inj h with rfl
            by_cases hhit : s.errCount + 1 = errOut
            · simp [htraj, hhit, collectEvery]
            · simp [htraj, hhit, collectEvery]
        | false =>
            have := ih (m + 1) s1 sf h
            by_cases hhit : s.errCount + 1 = errOut
            · rw [this, hcnt, htraj]
              simp [hhit, collectEvery, List.append_assoc]
            · rw [this, hcnt, htraj]
              simp [hhit, collectEvery]

/- ### Claim theorems about the driver -/

/-- C1.  With a normally-returning observer (equivalently, none), an
iteration of the `estimate` loop terminates the loop as converged exactly
when `max(|new − old| − maxerr·|new|) < 0`: if the test holds the loop
returns right there with the old weight vector untouched, and if it fails
the old weight vector is overwritten with the new weights and the loop
continues with the remaining iteration budget (so at most `maxiter`
iterations run in total). -/
theorem estimate_convergence_test (upd : List ℝ → List ℝ) (maxerr : ℝ)
    (errOut : ℕ) (cb : ℕ → CbRes) (n m : ℕ) (s : LoopState)
    (hcb : cb m = CbRes.ret) :
    (lmax (convVec (upd s.oldW) s.oldW maxerr) < 0 →
      loopRun upd maxerr errOut cb (n + 1) m s =
        Except.ok ⟨s.oldW, upd s.oldW,
          if s.errCount + 1 = errOut then 0 else s.errCount + 1,
          if s.errCount + 1 = errOut then s.errTraj ++ [errOf upd s]
            else s.errTraj⟩) ∧
    (¬ lmax (convVec (upd s.oldW) s.oldW maxerr) < 0 →
      loopRun upd maxerr errOut cb (n + 1) m s =
        loopRun upd maxerr errOut cb n (m + 1)
          ⟨upd s.oldW, upd s.oldW,
            if s.errCount + 1 = errOut then 0 else s.errCount + 1,
            if s.errCount + 1 = errOut then s.errTraj ++ [errOf upd s]
              else s.errTraj⟩) := by
  constructor <;> intro h
  · have hb : bodyStep upd maxerr errOut cb m s =
        Except.ok (⟨s.oldW, upd s.oldW,
          if s.errCount + 1 = errOut then 0 else s.errCount + 1,
          if s.errCount + 1 = errOut then s.errTraj ++ [errOf upd s]
            else s.errTraj⟩, true) := by
      unfold bodyStep
      rw [hcb]
      simp only [errOf]
      rw [if_pos h]
    rw [loopRun, hb]
  · have hb : bodyStep upd maxerr errOut cb m s =
        Except.ok (⟨upd s.oldW, upd s.oldW,
          if s.errCount + 1 = errOut then 0 else s.errCount + 1,
          if s.errCount + 1 = errOut then s.errTraj ++ [errOf upd s]
            else s.errTraj⟩, false) := by
      unfold bodyStep
      rw [hcb]
      simp only [errOf]
      rw [if_neg h]
    rw [loopRun, hb]

/-- C5.  If the observer raises `CallbackInterrupt` on every invocation,
`estimate` executes exactly one weight-update iteration for any positive
`maxiter`: the returned thermodynamic free energies are the elementwise
negative log of the weights produced by that single update of the seed
weights.  A callback that raises any other exception makes `estimate`
propagate it to the caller (`Except.error`). -/
theorem estimate_interrupt_single_iteration (upd : List ℝ → List ℝ)
    (n : ℕ) (maxerr : ℝ) (te0 : Option (List ℝ)) (errOut : ℕ) (T : ℕ) :
    (∃ tr, estimate upd (n + 1) maxerr te0 errOut
        (fun _ => CbRes.interrupt) T =
      Except.ok ⟨(upd (initW te0 T)).map fun x => -Real.log x, tr⟩) ∧
    estimate upd (n + 1) maxerr te0 errOut (fun _ => CbRes.exc) T =
      Except.error () := by
  constructor
  · by_cases h :
      lmax (convVec (upd (initW te0 T)) (initW te0 T) maxerr) < 0
    · have hb : bodyStep upd maxerr errOut (fun _ => CbRes.interrupt) 0
          ⟨initW te0 T, initW te0 T, 0, []⟩ =
          Except.ok (⟨initW te0 T, upd (initW te0 T),
            if 0 + 1 = errOut then 0 else 0 + 1,
            if 0 + 1 = errOut then
              [errOf upd ⟨initW te0 T, initW te0 T, 0, []⟩] else []⟩,
            true) := by
        unfold bodyStep
        simp only [errOf]
        rw [if_pos h]
        simp
      have hl : loopRun upd maxerr errOut (fun _ => CbRes.interrupt)
          (n + 1) 0 ⟨initW te0 T, initW te0 T, 0, []⟩ =
          Except.ok ⟨initW te0 T, upd (initW te0 T),
            if 0 + 1 = errOut then 0 else 0 + 1,
            if 0 + 1 = errOut then
              [errOf upd ⟨initW te0 T, initW te0 T, 0, []⟩] else []⟩ := by
        rw [loopRun, hb]
      refine ⟨if errOut = 0 then none else
        some (if 0 + 1 = errOut then
          [errOf upd ⟨initW te0 T, initW te0 T, 0, []⟩] else []), ?_⟩
      unfold estimate
      rw [hl]
    · have hb : bodyStep upd maxerr errOut (fun _ => CbRes.interrupt) 0
          ⟨initW te0 T, initW te0 T, 0, []⟩ =
          Except.ok (⟨upd (initW te0 T), upd (initW te0 T),
            if 0 + 1 = errOut then 0 else 0 + 1,
            if 0 + 1 = errOut then
              [errOf upd ⟨initW te0 T, initW te0 T, 0, []⟩] else []⟩,
            true) := by
        unfold bodyStep
        simp only [errOf]
        rw [if_neg h]
        simp
      have hl : loopRun upd maxerr errOut (fun _ => CbRes.interrupt)
          (n + 1) 0 ⟨initW te0 T, initW te0 T, 0, []⟩ =
          Except.ok ⟨upd (initW te0 T), upd (initW te0 T),
            if 0 + 1 = errOut then 0 else 0 + 1,
            if 0 + 1 = errOut then
              [errOf upd ⟨initW te0 T, initW te0 T, 0, []⟩] else []⟩ := by
        rw [loopRun, hb]
      refine ⟨if errOut = 0 then none else
        some (if 0 + 1 = errOut then
          [errOf upd ⟨initW te0 T, initW te0 T, 0, []⟩] else []), ?_⟩
      unfold estimate
      rw [hl]
  · have hb : bodyStep upd maxerr errOut (fun _ => CbRes.exc) 0
        ⟨initW te0 T, initW te0 T, 0, []⟩ = Except.error () := by
      unfold bodyStep
      simp
    have hl : loopRun upd maxerr errOut (fun _ => CbRes.exc)
        (n + 1) 0 ⟨initW te0 T, initW te0 T, 0, []⟩ =
        Except.error () := by
      rw [loopRun, hb]
    unfold estimate
    rw [hl]

/-- C6.  When `estimate` returns normally, its error trajectory is `None`
for `err_out = 0`, and otherwise it is exactly the sequence of scalar
convergence errors of every `err_out`-th completed iteration, in iteration
order, sampled with a counter that starts at zero and resets to zero after
each append. -/
theorem estimate_error_trajectory (upd : List ℝ → List ℝ) (maxiter : ℕ)
    (maxerr : ℝ) (te0 : Option (List ℝ)) (errOut : ℕ) (cb : ℕ → CbRes)
    (T : ℕ) (r : EstimateResult)
    (h : estimate upd maxiter maxerr te0 errOut cb T = Except.ok r) :
    r.errTraj = if errOut = 0 then none
      else some (collectEvery errOut 0
        (completedErrs upd maxerr errOut cb maxiter 0
          ⟨initW te0 T, initW te0 T, 0, []⟩)) := by
  unfold estimate at h
  rcases hl : loopRun upd maxerr errOut cb maxiter 0
      ⟨initW te0 T, initW te0 T, 0, []⟩ with e | sf <;>
    rw [hl] at h
  · cases h
  · have hr := Except.ok.inj h
    have ht := loopRun_traj upd maxerr errOut cb maxiter 0
      ⟨initW te0 T, initW te0 T, 0, []⟩ sf hl
    simp only at ht
    rw [← hr]
    simp [ht]

/- ### Claim theorems about the WHAM kernels -/

lemma exp_sum_after_shift (f : ℕ → ℝ) (M : ℕ) (hM : 0 < M) :
    ((List.range M).map fun i =>
      Real.exp (-(f i + rc_logsumexp ((List.range M).map fun j => -(f j))))).sum
      = 1 := by
  have hS : 0 < ((List.range M).map fun i => Real.exp (-(f i))).sum :=
    sum_map_range_pos _ _ hM fun i => Real.exp_pos _
  have hlse : rc_logsumexp ((List.range M).map fun j => -(f j)) =
      Real.log (((List.range M).map fun i => Real.exp (-(f i))).sum) := by
    unfold rc_logsumexp
    rw [List.map_map]
    rfl
  rw [hlse]
  have hmap : ((List.range M).map fun i =>
      Real.exp (-(f i +
        Real.log (((List.range M).map fun i => Real.exp (-(f i))).sum)))) =
      (List.range M).map fun i => Real.exp (-(f i)) *
        (((List.range M).map fun i => Real.exp (-(f i))).sum)⁻¹ := by
    refine List.map_congr_left ?_
    intro k _
    have hinv : Real.exp (-(Real.log
        (((List.range M).map fun i => Real.exp (-(f i))).sum))) =
        (((List.range M).map fun i => Real.exp (-(f i))).sum)⁻¹ := by
      rw [Real.exp_neg, Real.exp_log hS]
    rw [neg_add, Real.exp_add, hinv]
  rw [hmap, sum_map_mul_const, mul_inv_cancel₀ (ne_of_gt hS)]

/-- After `rc_wham_normalize`, the implied distribution sums to one. -/
lemma norm_sum_one (f : ℕ → ℝ) (M : ℕ) (scratch : ℕ → ℝ) (hM : 0 < M) :
    ((List.range M).map fun i =>
      Real.exp (-((rc_wham_normalize f M scratch).1 i))).sum = 1 := by
  have hmap : ((List.range M).map fun i =>
      Real.exp (-((rc_wham_normalize f M scratch).1 i))) =
      (List.range M).map fun i =>
        Real.exp (-(f i + rc_logsumexp ((List.range M).map fun j => -(f j)))) := by
    refine List.map_congr_left ?_
    intro k hk
    rw [rc_wham_normalize_fst, if_pos (List.mem_range.mp hk)]
  rw [hmap]
  exact exp_sum_after_shift f M hM

/-- C2.  For every thermodynamic state `K < T`, `rc_wham_fk` sets
`f_K[K]` to the negative log-sum-exp over all Markov states `i < M` of
`-(b_K_i[K,i] + f_i[i])`, and it writes nothing outside `f_K[0..T)` (and
scratch): cells of the output array beyond `T` keep their prior contents,
and the input `f_i` is not among the arrays the kernel returns writes
for. -/
theorem rc_wham_fk_spec (f_i b_K_i : ℕ → ℝ) (T M : ℕ)
    (scratch f_K0 : ℕ → ℝ) (K : ℕ) (hK : K < T) :
    (rc_wham_fk f_i b_K_i T M scratch f_K0).2 K =
      -(rc_logsumexp ((List.range M).map fun i =>
        -(b_K_i (K * M + i) + f_i i))) ∧
    ∀ K2, T ≤ K2 → (rc_wham_fk f_i b_K_i T M scratch f_K0).2 K2 = f_K0 K2 := by
  constructor
  · rw [rc_wham_fk_apply, if_pos hK]
  · intro K2 hK2
    rw [rc_wham_fk_apply, if_neg (by omega)]

/-- C3, counterexample.  With `T = M = 1`, all of `log_N_K`, `f_K`, `b_K_i`
zero but `log_N_i[0] = log 2`, the code computes
`f_i[0] = logsumexp(...) − log_N_i[0] = −log 2`, not the bare log-sum-exp
`0` the claim states: the claim omits the subtraction of the log
configurational-state count. -/
theorem rc_wham_fi_claim_counterexample :
    ¬ (rc_wham_fi (fun _ => 0) (fun _ => Real.log 2) (fun _ => 0)
        (fun _ => 0) 1 1 (fun _ => 0) (fun _ => 0)).2 0 =
      rc_logsumexp ((List.range 1).map fun K =>
        (fun _ => (0 : ℝ)) K - (fun _ => (0 : ℝ)) (K * 1 + 0) +
          (fun _ => (0 : ℝ)) K) := by
  rw [rc_wham_fi_apply, if_pos (by norm_num)]
  have h2 : (0 : ℝ) < Real.log 2 := Real.log_pos (by norm_num)
  intro h
  simp only [sub_eq_iff_eq_add] at h
  nlinarith [h, h2]

/-- C3, amended.  For every configurational state `i < M`, `rc_wham_fi`
computes `f_i[i]` as the log-sum-exp over all thermodynamic states `K` of
`log_N_K[K] + f_K[K] − b_K_i[K,i]`, *minus the log configurational-state
count `log_N_i[i]`*; cells beyond `M` keep their prior contents. -/
theorem rc_wham_fi_formula (log_N_K log_N_i f_K b_K_i : ℕ → ℝ)
    (T M : ℕ) (scratch f_i0 : ℕ → ℝ) (i : ℕ) (hi : i < M) :
    (rc_wham_fi log_N_K log_N_i f_K b_K_i T M scratch f_i0).2 i =
      rc_logsumexp ((List.range T).map fun K =>
        log_N_K K - b_K_i (K * M + i) + f_K K) - log_N_i i ∧
    ∀ i2, M ≤ i2 →
      (rc_wham_fi log_N_K log_N_i f_K b_K_i T M scratch f_i0).2 i2 =
        f_i0 i2 := by
  constructor
  · rw [rc_wham_fi_apply, if_pos hi]
  · intro i2 hi2
    rw [rc_wham_fi_apply, if_neg (by omega)]

/-- C4.  `rc_wham_normalize` adds the single shift
`logsumexp(-f_i)` to every entry of `f_i` in place, and afterwards the
implied distribution satisfies `Σ_{i<M} exp(-f_i[i]) = 1` in exact real
arithmetic (`M ≥ 1`; for `M = 0` the log-sum-exp is `log 0`, the
negative-infinity sentinel excluded by the claim). -/
theorem rc_wham_normalize_spec (f : ℕ → ℝ) (M : ℕ) (scratch : ℕ → ℝ)
    (hM : 0 < M) :
    (∀ k, k < M → (rc_wham_normalize f M scratch).1 k =
      f k + rc_logsumexp ((List.range M).map fun j => -(f j))) ∧
    ((List.range M).map fun i =>
      Real.exp (-((rc_wham_normalize f M scratch).1 i))).sum = 1 := by
  constructor
  · intro k hk
    rw [rc_wham_normalize_fst, if_pos hk]
  · exact norm_sum_one f M scratch hM

/-- C7.  `rc_wham_normalize` is idempotent in exact real arithmetic: a
second application (with any scratch buffer) changes no entry of the
free-energy vector, because the second shift is
`log Σ exp(-normalized) = log 1 = 0`. -/
theorem rc_wham_normalize_idempotent (f : ℕ → ℝ) (M : ℕ)
    (s1 s2 : ℕ → ℝ) (hM : 0 < M) :
    (rc_wham_normalize (rc_wham_normalize f M s1).1 M s2).1 =
      (rc_wham_normalize f M s1).1 := by
  have hshift : rc_logsumexp ((List.range M).map fun j =>
      -((rc_wham_normalize f M s1).1 j)) = 0 := by
    have : rc_logsumexp ((List.range M).map fun j =>
        -((rc_wham_normalize f M s1).1 j)) =
        Real.log (((List.range M).map fun i =>
          Real.exp (-((rc_wham_normalize f M s1).1 i))).sum) := by
      unfold rc_logsumexp
      rw [List.map_map]
      rfl
    rw [this, norm_sum_one f M s1 hM, Real.log_one]
  funext k
  rw [rc_wham_normalize_fst, hshift]
  by_cases hk : k < M
  · rw [if_pos hk, add_zero]
  · rw [if_neg hk]

/-- C9.  For each of the three WHAM kernels, the output array is
independent of the initial contents of the caller-supplied scratch buffer:
two calls identical except for the initial scratch produce identical
outputs (every scratch cell read was written earlier in the same call). -/
theorem wham_kernels_scratch_independent (log_N_K log_N_i f_K b_K_i
    f_i g f_i0 f_K0 : ℕ → ℝ) (T M : ℕ) (s1 s2 : ℕ → ℝ) :
    (rc_wham_fi log_N_K log_N_i f_K b_K_i T M s1 f_i0).2 =
      (rc_wham_fi log_N_K log_N_i f_K b_K_i T M s2 f_i0).2 ∧
    (rc_wham_fk f_i b_K_i T M s1 f_K0).2 =
      (rc_wham_fk f_i b_K_i T M s2 f_K0).2 ∧
    (rc_wham_normalize g M s1).1 = (rc_wham_normalize g M s2).1 := by
  refine ⟨funext fun k => ?_, funext fun k => ?_, funext fun k => ?_⟩
  · rw [rc_wham_fi_apply, rc_wham_fi_apply]
  · rw [rc_wham_fk_apply, rc_wham_fk_apply]
  · rw [rc_wham_normalize_fst, rc_wham_normalize_fst]

/- ### Claim theorem about the log-sum-exp primitive -/

/-- C8 (primitive modelled from the spec, `_lse.c` not among the sources).
For finite nonempty input the log-sum-exp dominates the maximum entry; on a
constant vector of length `N ≥ 1` it returns exactly `max + log N`
(e.g. `[-1,-1,-1] ↦ -1 + log 3`); and when every entry is negative infinity
it returns negative infinity rather than failing. -/
theorem rc_logsumexp_ext_spec (w : List ℝ) (c : ℝ) (N : ℕ) (hw : w ≠ []) :
    (∃ r, rc_logsumexp_ext (w.map some) = some r ∧ lmax w ≤ r) ∧
    rc_logsumexp_ext (List.replicate (N + 1) (some c)) =
      some (c + Real.log ((N : ℝ) + 1)) ∧
    rc_logsumexp_ext (List.replicate N (none : Option ℝ)) = none := by
  refine ⟨?_, ?_, ?_⟩
  · have hnot : ¬ ∀ x ∈ w.map some, x = none := by
      intro hall
      rcases List.exists_mem_of_ne_nil w hw with ⟨a, ha⟩
      have := hall (some a) (List.mem_map_of_mem _ ha)
      cases this
    unfold rc_logsumexp_ext
    rw [if_neg hnot]
    have hmm : (w.map some).map (fun x => x.elim 0 Real.exp) =
        w.map Real.exp := by
      rw [List.map_map]
      rfl
    rw [hmm]
    refine ⟨_, rfl, ?_⟩
    have hmem : Real.exp (lmax w) ∈ w.map Real.exp :=
      List.mem_map_of_mem _ (lmax_mem w hw)
    have hnn : ∀ x ∈ w.map Real.exp, (0 : ℝ) ≤ x := by
      intro x hx
      rcases List.mem_map.mp hx with ⟨a, _, rfl⟩
      exact (Real.exp_pos a).le
    have hle : Real.exp (lmax w) ≤ (w.map Real.exp).sum :=
      List.single_le_sum hnn _ hmem
    have hpos : (0 : ℝ) < (w.map Real.exp).sum :=
      lt_of_lt_of_le (Real.exp_pos _) hle
    exact (Real.le_log_iff_exp_le hpos).mpr hle
  · have hnot : ¬ ∀ x ∈ List.replicate (N + 1) (some c), x = none := by
      intro hall
      have := hall (some c) (by simp [List.mem_replicate])
      cases this
    unfold rc_logsumexp_ext
    rw [if_neg hnot]
    rw [List.map_replicate]
    have he : (some c).elim (0 : ℝ) Real.exp = Real.exp c := rfl
    rw [he, List.sum_replicate, nsmul_eq_mul]
    have hc : (((N : ℝ) + 1)) ≠ 0 := by positivity
    rw [Real.log_mul (by push_cast; positivity) (Real.exp_ne_zero c),
      Real.log_exp]
    push_cast
    ring_nf
  · unfold rc_logsumexp_ext
    rw [if_pos]
    intro x hx
    exact List.eq_of_mem_replicate hx

/- ### Memory model of `estimate` (frame claim)

To settle what `estimate` writes, the driver is modelled once more at the
level of NumPy array allocation and mutation: a `Mem` is an allocation
counter plus a map from array ids to contents.  `astype`, `np.log`,
`np.exp`, `np.zeros`/`ones`, `.copy()` and `-np.log` allocate fresh arrays
(NumPy returns new buffers for all of them; `astype` copies by default);
`update_therm_weights` writes through its `scratch_T` and output pointers,
`old_therm_weights[:] = therm_weights[:]` writes through the old-weights
id, and the external `mbar` service allocates its two outputs and writes
its scratch and the three free-energy arrays handed to `normalize`.  The
numeric contents are irrelevant to the frame property and enter as opaque
parameters. -/

/-- A heap of NumPy arrays: ids below `cnt` are allocated. -/
structure Mem where
  cnt : ℕ
  heap : ℕ → List ℝ

/-- Allocate a fresh array holding `v`: returns its id and the new heap. -/
def allocA (v : List ℝ) (m : Mem) : ℕ × Mem :=
  (m.cnt, ⟨m.cnt + 1, fun j => if j = m.cnt then v else m.heap j⟩)

/-- Overwrite the contents of array `id` in place. -/
def writeA (id : ℕ) (v : List ℝ) (m : Mem) : Mem :=
  ⟨m.cnt, fun j => if j = id then v else m.heap j⟩

/-- The numeric functions the frame property is agnostic about: the value
cast of `astype(intc)`, the `_update_therm_weights` kernel (result and what
it leaves in `scratch_T`), the external `mbar.get_conf_energies` /
`mbar.normalize` service, and the derivation `M = 1 + max(assignments)`. -/
structure NumModel where
  intcCast : List ℝ → List ℝ
  updF : List ℝ → List ℝ → List ℝ → List ℝ
  updScratch : List ℝ → List ℝ → List ℝ → List ℝ
  confF : List ℝ → List ℝ → List ℝ → List ℝ → List ℝ
  biasedF : List ℝ → List ℝ → List ℝ → List ℝ → List ℝ
  confScratch : List ℝ → List ℝ
  normTe : List ℝ → List ℝ
  normConf : List ℝ → List ℝ
  normBiased : List ℝ → List ℝ
  normScratchM : List ℝ → List ℝ
  derivedM : List ℝ → ℕ

/-- The `for _m in range(maxiter)` loop at heap level (lines 117–141): each
iteration writes `therm_weights` (the kernel's output buffer) and
`scratch_T`, then — unless the convergence test passes — writes
`old_therm_weights`.  The returned flag records a propagating callback
exception, which aborts `estimate` right here. -/
noncomputable def loopHeap (nm : NumModel) (maxerr : ℝ) (cb : ℕ → CbRes)
    (tsc bws tw otw scT : ℕ) : ℕ → ℕ → Mem → Mem × Bool
  | 0, _, m => (m, false)
  | n + 1, it, m =>
      let m1 := writeA tw (nm.updF (m.heap tsc) (m.heap otw) (m.heap bws)) m
      let m2 := writeA scT
        (nm.updScratch (m.heap tsc) (m.heap otw) (m.heap bws)) m1
      match cb it with
      | CbRes.exc => (m2, true)
      | CbRes.interrupt =>
          if lmax (convVec (m2.heap tw) (m2.heap otw) maxerr) < 0 then
            (m2, false)
          else (writeA otw (m2.heap tw) m2, false)
      | CbRes.ret =>
          if lmax (convVec (m2.heap tw) (m2.heap otw) maxerr) < 0 then
            (m2, false)
          else loopHeap nm maxerr cb tsc bws tw otw scT n (it + 1)
            (writeA otw (m2.heap tw) m2)

/-- Lines 104–108 at heap level: seed `therm_energies`/`therm_weights`,
either as fresh zero/one arrays or, on warm start, reusing the caller's
energies id read-only and exponentiating into a fresh weights array.
Returns (energies id, weights id, heap). -/
noncomputable def initArrays (teIn : Option ℕ) (T : ℕ) (m : Mem) :
    ℕ × ℕ × Mem :=
  match teIn with
  | none =>
      let a := allocA (List.replicate T (0 : ℝ)) m
      let b := allocA (List.replicate T (1 : ℝ)) a.2
      (a.1, b.1, b.2)
  | some te =>
      let b := allocA ((m.heap te).map fun x => Real.exp (-x)) m
      (te, b.1, b.2)

/-- The whole of `estimate` (lines 100–151) at heap level, following the
statement order of the source. -/
noncomputable def estimateHeap (nm : NumModel) (maxiter : ℕ) (maxerr : ℝ)
    (cb : ℕ → CbRes) (tscIn besIn cssIn : ℕ) (teIn : Option ℕ)
    (m0 : Mem) : Mem :=
  let a1 := allocA (nm.intcCast (m0.heap tscIn)) m0
  let a2 := allocA ((a1.2.heap a1.1).map Real.log) a1.2
  let p := initArrays teIn (a1.2.heap a1.1).length a2.2
  let a4 := allocA ((p.2.2.heap besIn).map fun x => Real.exp (-x)) p.2.2
  let a5 := allocA (a4.2.heap p.1) a4.2
  let a6 := allocA (a5.2.heap p.2.1) a5.2
  let a7 := allocA
    (List.replicate (nm.derivedM (a6.2.heap cssIn)) (0 : ℝ)) a6.2
  let a8 := allocA
    (List.replicate (a1.2.heap a1.1).length (0 : ℝ)) a7.2
  let lp := loopHeap nm maxerr cb a1.1 a4.1 p.2.1 a6.1 a8.1 maxiter 0 a8.2
  if lp.2 then lp.1 else
  let a10 := allocA ((lp.1.heap p.2.1).map fun x => -Real.log x) lp.1
  let a11 := allocA (nm.confF (a10.2.heap a2.1) (a10.2.heap a10.1)
    (a10.2.heap besIn) (a10.2.heap cssIn)) a10.2
  let a12 := allocA (nm.biasedF (a11.2.heap a2.1) (a11.2.heap a10.1)
    (a11.2.heap besIn) (a11.2.heap cssIn)) a11.2
  let m12 := writeA a8.1 (nm.confScratch (a12.2.heap a8.1)) a12.2
  let m13 := writeA a10.1 (nm.normTe (m12.heap a10.1)) m12
  let m14 := writeA a11.1 (nm.normConf (m13.heap a11.1)) m13
  let m15 := writeA a12.1 (nm.normBiased (m14.heap a12.1)) m14
  writeA a7.1 (nm.normScratchM (m15.heap a7.1)) m15

/- ### Frame lemmas -/

/-- All ids below `c` still hold their contents from `m0`, and the
allocation counter has not dropped below `c`. -/
def FrameLe (c : ℕ) (m0 m : Mem) : Prop :=
  c ≤ m.cnt ∧ ∀ j, j < c → m.heap j = m0.heap j

lemma frameLe_refl (c : ℕ) (m : Mem) (h : c ≤ m.cnt) : FrameLe c m m :=
  ⟨h, fun _ _ => rfl⟩

lemma frameLe_alloc (c : ℕ) (m0 m : Mem) (v : List ℝ)
    (h : FrameLe c m0 m) : FrameLe c m0 (allocA v m).2 := by
  have hc := h.1
  refine ⟨by simp [allocA]; omega, ?_⟩
  intro j hj
  have : j ≠ m.cnt := by omega
  simp [allocA, this]
  exact h.2 j hj

lemma allocA_id_ge (c : ℕ) (m0 m : Mem) (v : List ℝ)
    (h : FrameLe c m0 m) : c ≤ (allocA v m).1 := by
  simpa [allocA] using h.1

lemma frameLe_write (c : ℕ) (m0 m : Mem) (id : ℕ) (v : List ℝ)
    (h : FrameLe c m0 m) (hid : c ≤ id) : FrameLe c m0 (writeA id v m) := by
  refine ⟨by simpa [writeA] using h.1, ?_⟩
  intro j hj
  have : j ≠ id := by omega
  simp [writeA, this]
  exact h.2 j hj

lemma frameLe_initArrays (c : ℕ) (m0 : Mem) (teIn : Option ℕ) (T : ℕ)
    (m : Mem) (h : FrameLe c m0 m) :
    FrameLe c m0 (initArrays teIn T m).2.2 ∧
      c ≤ (initArrays teIn T m).2.1 := by
  cases teIn with
  | none =>
      refine ⟨frameLe_alloc _ _ _ _ (frameLe_alloc _ _ _ _ h), ?_⟩
      exact allocA_id_ge _ _ _ _ (frameLe_alloc _ _ _ _ h)
  | some te =>
      exact ⟨frameLe_alloc _ _ _ _ h, allocA_id_ge _ _ _ _ h⟩

lemma loopHeap_frame (nm : NumModel) (maxerr : ℝ) (cb : ℕ → CbRes)
    (tsc bws tw otw scT c : ℕ) (m0 : Mem)
    (htw : c ≤ tw) (hotw : c ≤ otw) (hscT : c ≤ scT) :
    ∀ (n it : ℕ) (m : Mem), FrameLe c m0 m →
      FrameLe c m0 (loopHeap nm maxerr cb tsc bws tw otw scT n it m).1 := by
  intro n
  induction n with
  | zero => intro it m h; exact h
  | succ n ih =>
      intro it m h
      rw [loopHeap]
      have h2 : FrameLe c m0 (writeA scT
          (nm.updScratch (m.heap tsc) (m.heap otw) (m.heap bws))
          (writeA tw (nm.updF (m.heap tsc) (m.heap otw) (m.heap bws)) m)) :=
        frameLe_write _ _ _ _ _ (frameLe_write _ _ _ _ _ h htw) hscT
      rcases cb it with _ | _ | _
      · simp only
        split
        · exact h2
        · exact ih _ _ (frameLe_write _ _ _ _ _ h2 hotw)
      · simp only
        split
        · exact h2
        · exact frameLe_write _ _ _ _ _ h2 hotw
      · exact h2

/-- C10.  `estimate` never mutates a caller-supplied input array: every
array id allocated before the call (in particular `therm_state_counts`,
`bias_energy_sequence`, `conf_state_sequence` and a warm-start
`therm_energies`) holds exactly its original contents when `estimate`
returns — whether the loop converges, exhausts `maxiter`, is interrupted,
or aborts on a propagating callback exception.  All mutation targets
(`therm_weights`, `old_therm_weights`, the scratch buffers and the freshly
allocated outputs) are arrays allocated inside the call. -/
theorem estimate_no_input_mutation (nm : NumModel) (maxiter : ℕ)
    (maxerr : ℝ) (cb : ℕ → CbRes) (tscIn besIn cssIn : ℕ)
    (teIn : Option ℕ) (m0 : Mem) (j : ℕ) (hj : j < m0.cnt) :
    (estimateHeap nm maxiter maxerr cb tscIn besIn cssIn teIn m0).heap j =
      m0.heap j := by
  suffices h : FrameLe m0.cnt m0
      (estimateHeap nm maxiter maxerr cb tscIn besIn cssIn teIn m0) from
    h.2 j hj
  simp only [estimateHeap]
  split
  all_goals
    repeat' first
      | exact frameLe_refl m0.cnt m0 le_rfl
      | apply frameLe_write
      | apply frameLe_alloc
      | apply loopHeap_frame
      | refine (frameLe_initArrays m0.cnt m0 _ _ _ ?_).1
      | refine (frameLe_initArrays m0.cnt m0 _ _ _ ?_).2
      | refine allocA_id_ge m0.cnt m0 _ _ ?_

/- ### Concrete witnesses -/

/-- Witness for C1 at a one-entry weight vector where the convergence test
fires: `max(|1−1| − 1·|1|) = −1 < 0`, so the loop returns converged at
once. -/
theorem estimate_convergence_test_witness :
    ((fun _ : ℕ => CbRes.ret) 0 = CbRes.ret) ∧
    lmax (convVec [(1 : ℝ)] [(1 : ℝ)] 1) < 0 ∧
    loopRun (fun _ => [(1 : ℝ)]) 1 0 (fun _ => CbRes.ret) 1 0
        ⟨[(1 : ℝ)], [(1 : ℝ)], 0, []⟩ =
      Except.ok ⟨[(1 : ℝ)], [(1 : ℝ)], 1, []⟩ := by
  have hconv : lmax (convVec [(1 : ℝ)] [(1 : ℝ)] 1) < 0 := by
    norm_num [convVec, lmax]
  exact ⟨rfl, hconv,
    (estimate_convergence_test (fun _ => [(1 : ℝ)]) 1 0
      (fun _ => CbRes.ret) 0 0 ⟨[(1 : ℝ)], [(1 : ℝ)], 0, []⟩ rfl).1 hconv⟩

/-- Witness for C6 on a zero-iteration run with stride 1: `estimate`
returns normally and its trajectory is the (empty) sampled sequence. -/
theorem estimate_error_trajectory_witness :
    estimate (fun l => l) 0 0 none 1 (fun _ => CbRes.ret) 1 =
      Except.ok ⟨[(0 : ℝ)], some []⟩ ∧
    (⟨[(0 : ℝ)], some []⟩ : EstimateResult).errTraj =
      (if (1 : ℕ) = 0 then none else some (collectEvery 1 0
        (completedErrs (fun l => l) 0 1 (fun _ => CbRes.ret) 0 0
          ⟨initW none 1, initW none 1, 0, []⟩))) := by
  have h : estimate (fun l => l) 0 0 none 1 (fun _ => CbRes.ret) 1 =
      Except.ok ⟨[(0 : ℝ)], some []⟩ := by
    simp [estimate, loopRun, initW]
  exact ⟨h, estimate_error_trajectory (fun l => l) 0 0 none 1
    (fun _ => CbRes.ret) 1 _ h⟩

/-- Witness for C2 at `T = M = 1` with all-zero inputs. -/
theorem rc_wham_fk_spec_witness :
    (0 : ℕ) < 1 ∧
    ((rc_wham_fk (fun _ => 0) (fun _ => 0) 1 1 (fun _ => 0)
        (fun _ => 0)).2 0 =
      -(rc_logsumexp ((List.range 1).map fun _ => -((0 : ℝ) + 0))) ∧
    ∀ K2, 1 ≤ K2 →
      (rc_wham_fk (fun _ => 0) (fun _ => 0) 1 1 (fun _ => 0)
        (fun _ => 0)).2 K2 = 0) :=
  ⟨Nat.one_pos, rc_wham_fk_spec (fun _ => 0) (fun _ => 0) 1 1
    (fun _ => 0) (fun _ => 0) 0 Nat.one_pos⟩

/-- Witness for C3 (amended formula) at `T = M = 1` with all-zero inputs. -/
theorem rc_wham_fi_formula_witness :
    (0 : ℕ) < 1 ∧
    ((rc_wham_fi (fun _ => 0) (fun _ => 0) (fun _ => 0) (fun _ => 0) 1 1
        (fun _ => 0) (fun _ => 0)).2 0 =
      rc_logsumexp ((List.range 1).map fun _ => (0 : ℝ) - 0 + 0) - 0 ∧
    ∀ i2, 1 ≤ i2 →
      (rc_wham_fi (fun _ => 0) (fun _ => 0) (fun _ => 0) (fun _ => 0) 1 1
        (fun _ => 0) (fun _ => 0)).2 i2 = 0) :=
  ⟨Nat.one_pos, rc_wham_fi_formula (fun _ => 0) (fun _ => 0) (fun _ => 0)
    (fun _ => 0) 1 1 (fun _ => 0) (fun _ => 0) 0 Nat.one_pos⟩

/-- Witness for C4 at the all-zero length-1 vector. -/
theorem rc_wham_normalize_spec_witness :
    (0 : ℕ) < 1 ∧
    ((∀ k, k < 1 → (rc_wham_normalize (fun _ => 0) 1 (fun _ => 0)).1 k =
      (0 : ℝ) + rc_logsumexp ((List.range 1).map fun _ => -(0 : ℝ))) ∧
    ((List.range 1).map fun i =>
      Real.exp (-((rc_wham_normalize (fun _ => 0) 1 (fun _ => 0)).1 i))).sum
      = 1) :=
  ⟨Nat.one_pos,
    rc_wham_normalize_spec (fun _ => 0) 1 (fun _ => 0) Nat.one_pos⟩

/-- Witness for C7 at the all-zero length-1 vector. -/
theorem rc_wham_normalize_idempotent_witness :
    (0 : ℕ) < 1 ∧
    (rc_wham_normalize
        (rc_wham_normalize (fun _ => 0) 1 (fun _ => 0)).1 1
        (fun _ => 0)).1 =
      (rc_wham_normalize (fun _ => 0) 1 (fun _ => 0)).1 :=
  ⟨Nat.one_pos, rc_wham_normalize_idempotent (fun _ => 0) 1 (fun _ => 0)
    (fun _ => 0) Nat.one_pos⟩

/-- Witness for C8 at `w = [-1]`, `c = -1`, `N = 2`: in particular the
spec's own example `[-1,-1,-1] ↦ -1 + log 3`. -/
theorem rc_logsumexp_ext_spec_witness :
    ([(-1 : ℝ)] ≠ []) ∧
    ((∃ r, rc_logsumexp_ext ([(-1 : ℝ)].map some) = some r ∧
        lmax [(-1 : ℝ)] ≤ r) ∧
    rc_logsumexp_ext (List.replicate (2 + 1) (some (-1 : ℝ))) =
      some (-1 + Real.log ((2 : ℝ) + 1)) ∧
    rc_logsumexp_ext (List.replicate 2 (none : Option ℝ)) = none) :=
  ⟨by simp, rc_logsumexp_ext_spec [(-1 : ℝ)] (-1) 2 (by simp)⟩

/-- Witness for C10 on a one-array heap with trivial numeric parameters. -/
theorem estimate_no_input_mutation_witness :
    (0 : ℕ) < (⟨1, fun _ => []⟩ : Mem).cnt ∧
    (estimateHeap
        ⟨id, fun _ _ _ => [], fun _ _ _ => [], fun _ _ _ _ => [],
          fun _ _ _ _ => [], id, id, id, id, id, fun _ => 0⟩
        0 0 (fun _ => CbRes.ret) 0 0 0 none ⟨1, fun _ => []⟩).heap 0 =
      (⟨1, fun _ => []⟩ : Mem).heap 0 :=
  ⟨Nat.one_pos, estimate_no_input_mutation
    ⟨id, fun _ _ _ => [], fun _ _ _ => [], fun _ _ _ _ => [],
      fun _ _ _ _ => [], id, id, id, id, id, fun _ => 0⟩
    0 0 (fun _ => CbRes.ret) 0 0 0 none ⟨1, fun _ => []⟩ 0 Nat.one_pos⟩

end Thermotools
